import Mathlib

/-!
Verification development for the blog-asset scripts of the
`Public-Assets` repository (`add_blog_from_url.py`, `add_blog_manual.py`,
`add_blog_image.py`).

The Python code is shallowly embedded: strings are Lean `String`s
(sequences of code points, matching Python's `str`), the regex pipeline of
`slugify` is modelled character by character, the index kept in
`Blogs/index.json` is a `List IndexEntry`, and the on-disk state touched by
the scripts is a small typed file-system record.  Python's
`list.sort(key=..., reverse=True)` is a stable sort by the key, descending;
a stable sort is a uniquely determined function, here realised by
`List.insertionSort` with the "publishedDate not smaller" relation.
-/

namespace PublicAssets

/-! ## Character classes of the `slugify` regexes (ASCII range)

`slugify` is

    text = re.sub(r'[^\w\s-]', '', text.lower())
    text = re.sub(r'[\s_-]+', '-', text)
    text = re.sub(r'^-+|-+$', '', text)
-/

/-- Python's whitespace class `\s`, restricted to the ASCII range. -/
def isPySpace (c : Char) : Bool :=
  c == ' ' || c == '\t' || c == '\n' || c == '\r' || c == '\x0b' || c == '\x0c'

/-- Python's word-character class `\w` (ASCII range): letters, digits and
the underscore. -/
def isWordChar (c : Char) : Bool := c.isAlphanum || c == '_'

/-- Characters kept by the first substitution `re.sub(r'[^\w\s-]', '', ·)`:
the complement of the negated class `[^\w\s-]`. -/
def keepChar (c : Char) : Bool := isWordChar c || isPySpace c || c == '-'

/-- Characters matched by the run class `[\s_-]` of the second
substitution. -/
def isRunChar (c : Char) : Bool := isPySpace c || c == '_' || c == '-'

/-- The second substitution `re.sub(r'[\s_-]+', '-', ·)`: every maximal
run of whitespace/underscore/hyphen characters becomes a single hyphen.
A run character followed by another run character is dropped; the last
character of a run is replaced by `'-'`. -/
def collapseRuns : List Char → List Char
  | [] => []
  | [c] => if isRunChar c then ['-'] else [c]
  | c :: d :: rest =>
    if isRunChar c then
      (if isRunChar d then collapseRuns (d :: rest) else '-' :: collapseRuns (d :: rest))
    else c :: collapseRuns (d :: rest)

/-- The third substitution `re.sub(r'^-+|-+$', '', ·)`: remove the leading
run of hyphens and the trailing run of hyphens. -/
def trimHyphens (l : List Char) : List Char :=
  ((l.dropWhile (· == '-')).reverse.dropWhile (· == '-')).reverse

/-- The whole pipeline on a character list. -/
def slugifyChars (l : List Char) : List Char :=
  trimHyphens (collapseRuns ((l.map Char.toLower).filter keepChar))

/-- The function `slugify` shared verbatim by `add_blog_from_url.py` and
`add_blog_manual.py`. -/
def slugify (s : String) : String := ⟨slugifyChars s.data⟩

/-- Modelled from the spec: the kept-character set as the specification
words it — "strip characters outside the set {letters, digits, whitespace,
hyphen}" — which does not keep the underscore. -/
def specKeepChar (c : Char) : Bool := c.isAlpha || c.isDigit || isPySpace c || c == '-'

/-- Modelled from the spec: the slug pipeline exactly as the specification
words it (lower-case, strip characters outside {letters, digits,
whitespace, hyphen}, collapse whitespace/underscore/hyphen runs to a
single hyphen, trim leading/trailing hyphens). -/
def slugifySpec (s : String) : String :=
  ⟨trimHyphens (collapseRuns ((s.data.map Char.toLower).filter specKeepChar))⟩

/-- The kept-character set amended to also keep the underscore, which is
what `\w` actually matches. -/
def specKeepCharAmended (c : Char) : Bool :=
  c.isAlpha || c.isDigit || c == '_' || isPySpace c || c == '-'

/-- The spec pipeline with the amended kept-character set. -/
def slugifySpecAmended (s : String) : String :=
  ⟨trimHyphens (collapseRuns ((s.data.map Char.toLower).filter specKeepCharAmended))⟩

/-- Adjacent characters are never both run characters. -/
def NoAdjRun (l : List Char) : Prop :=
  List.Chain' (fun a b => isRunChar a = false ∨ isRunChar b = false) l

/-! ## The index model

`Blogs/index.json` holds a list of entries.  Both `create_blog_structure`
functions replace the first entry with the record's id (or append a new
entry), then run `index_data.sort(key=lambda x: x['publishedDate'],
reverse=True)` and rewrite the file. -/

/-- One entry of `index.json`, with exactly the keys the scripts write. -/
structure IndexEntry where
  id : String
  title : String
  excerpt : String
  publishedDate : String
  coverImage : String
  category : String
  mediumUrl : String
deriving DecidableEq

/-- Python's `<` on strings: lexicographic comparison of code points. -/
def strLtB : List Char → List Char → Bool
  | [], [] => false
  | [], _ :: _ => true
  | _ :: _, [] => false
  | a :: as, b :: bs => if a < b then true else if b < a then false else strLtB as bs

/-- Entry `a` may precede entry `b` in the descending order used by
`sort(key=lambda x: x['publishedDate'], reverse=True)`: `a`'s date is not
smaller than `b`'s. -/
def dateGe (a b : IndexEntry) : Prop :=
  strLtB a.publishedDate.data b.publishedDate.data = false

instance : DecidableRel dateGe := fun a b =>
  inferInstanceAs (Decidable (strLtB a.publishedDate.data b.publishedDate.data = false))

instance : IsTotal IndexEntry dateGe where
  total a b := by
    have asymm : ∀ x y : List Char, strLtB x y = true → strLtB y x = false := by
      intro x
      induction x with
      | nil =>
        intro y h
        cases y with
        | nil => rfl
        | cons b bs => rfl
      | cons a as ih =>
        intro y h
        cases y with
        | nil => simp [strLtB] at h
        | cons b bs =>
          rw [strLtB] at h ⊢
          by_cases hab : a < b
          · rw [if_neg (lt_asymm hab), if_pos hab]
          · rw [if_neg hab] at h
            by_cases hba : b < a
            · rw [if_pos hba] at h
              exact Bool.noConfusion h
            · rw [if_neg hba] at h
              rw [if_neg hba, if_neg hab]
              exact ih bs h
    cases h : strLtB a.publishedDate.data b.publishedDate.data with
    | false => exact Or.inl h
    | true => exact Or.inr (asymm _ _ h)

instance : IsTrans IndexEntry dateGe where
  trans a b c hab hbc := by
    have key : ∀ x y z : List Char,
        strLtB x y = false → strLtB y z = false → strLtB x z = false := by
      intro x
      induction x with
      | nil =>
        intro y z h1 h2
        cases y with
        | nil => exact h2
        | cons b bs => simp [strLtB] at h1
      | cons a as ih =>
        intro y z h1 h2
        cases y with
        | nil =>
          cases z with
          | nil => rfl
          | cons c cs => simp [strLtB] at h2
        | cons b bs =>
          cases z with
          | nil => rfl
          | cons c cs =>
            rw [strLtB] at h1 h2 ⊢
            by_cases hab2 : a < b
            · rw [if_pos hab2] at h1
              exact Bool.noConfusion h1
            · rw [if_neg hab2] at h1
              by_cases hbc2 : b < c
              · rw [if_pos hbc2] at h2
                exact Bool.noConfusion h2
              · rw [if_neg hbc2] at h2
                have hba : b ≤ a := not_lt.mp hab2
                have hcb : c ≤ b := not_lt.mp hbc2
                have hac : ¬ a < c := fun hac =>
                  absurd (lt_of_lt_of_le (lt_of_lt_of_le hac hcb) hba) (lt_irrefl a)
                rw [if_neg hac]
                by_cases hca : c < a
                · rw [if_pos hca]
                · rw [if_neg hca]
                  have haeqc : a = c := le_antisymm (not_lt.mp hca) (not_lt.mp hac)
                  have hbeqa : b = a := le_antisymm hba (by rw [haeqc]; exact hcb)
                  rw [if_neg (by rw [hbeqa]; exact lt_irrefl a)] at h1
                  rw [if_neg (by rw [hbeqa, haeqc]; exact lt_irrefl c)] at h2
                  exact ih bs cs h1 h2
    exact key _ _ _ hab hbc

/-- The stable descending sort
`index_data.sort(key=lambda x: x['publishedDate'], reverse=True)`.
A stable sort with respect to a total preorder is a uniquely determined
function; it is realised here by insertion sort, which keeps an earlier
element before a later one whenever their keys are equal, exactly as
Python's stable sort does. -/
def sortByDateDesc (l : List IndexEntry) : List IndexEntry :=
  List.insertionSort dateGe l

/-- The for/else loop of `create_blog_structure`: replace the first entry
whose id equals the new entry's id (then `break`), else append the new
entry at the end. -/
def replaceOrAppend (e : IndexEntry) : List IndexEntry → List IndexEntry
  | [] => [e]
  | x :: xs => if x.id = e.id then e :: xs else x :: replaceOrAppend e xs

/-- The complete in-memory index update performed by both
`create_blog_structure` functions before the index file is rewritten. -/
def upsertIndex (e : IndexEntry) (l : List IndexEntry) : List IndexEntry :=
  sortByDateDesc (replaceOrAppend e l)

/-- A sequence of upserts starting from an empty (or absent, loaded as
`[]`) index. -/
def applyUpserts (ops : List IndexEntry) : List IndexEntry :=
  ops.foldl (fun idx e => upsertIndex e idx) []

/-- Number of index entries carrying a given id. -/
def countId (i : String) (l : List IndexEntry) : Nat :=
  (l.filter (fun x => x.id == i)).length

/-- Every id appears at most once in the index. -/
def AtMostOnePerId (l : List IndexEntry) : Prop := ∀ i : String, countId i l ≤ 1

/-! ## The file-system model

The scripts touch only: the per-post directory `Blogs/allBlogs/<id>`, files
inside such directories, the index file `Blogs/index.json`, and (for
`add_blog_image.py`) an arbitrary source image outside the tree.  Paths are
modelled by their components relative to the `Blogs` directory; file
contents are typed by what the scripts store in them. -/

/-- The metadata written to `allBlogs/<id>/blog.json`, with exactly the
keys of the `blog_json` dict. -/
structure BlogJson where
  id : String
  title : String
  excerpt : String
  content : String
  author : String
  publishedDate : String
  readTime : String
  tags : List String
  mediumUrl : String
  image : String
  category : String
deriving DecidableEq

/-- A path, relative to the `Blogs` directory (or outside the tree). -/
inductive FPath
  | indexJson : FPath
  | inBlog (blogId : String) (name : String) : FPath
  | outside (path : String) : FPath
deriving DecidableEq

/-- Typed file contents. -/
inductive FileData
  | image (bytes : String) : FileData
  | blogMeta (meta : BlogJson) : FileData
  | indexFile (entries : List IndexEntry) : FileData
deriving DecidableEq

/-- The on-disk state: existing per-post directories (by id) and files. -/
structure FS where
  dirs : List String
  files : List (FPath × FileData)
deriving DecidableEq

/-- Overwrite-or-append an association, keeping list order for existing
keys (writing to an existing path replaces its content in place). -/
def insertFile (p : FPath) (d : FileData) :
    List (FPath × FileData) → List (FPath × FileData)
  | [] => [(p, d)]
  | q :: rest => if q.1 = p then (p, d) :: rest else q :: insertFile p d rest

/-- Look up the content stored at a path. -/
def lookupFile (p : FPath) : List (FPath × FileData) → Option FileData
  | [] => none
  | q :: rest => if q.1 = p then some q.2 else lookupFile p rest

def FS.read (fs : FS) (p : FPath) : Option FileData := lookupFile p fs.files

def FS.writeFile (fs : FS) (p : FPath) (d : FileData) : FS :=
  { fs with files := insertFile p d fs.files }

/-- Directory creation `os.makedirs(blog_dir, exist_ok=True)`. -/
def FS.mkdir (fs : FS) (blogId : String) : FS :=
  if blogId ∈ fs.dirs then fs else { fs with dirs := blogId :: fs.dirs }

/-- Loading `index.json`: the stored list if the file exists, else `[]`. -/
def FS.indexData (fs : FS) : List IndexEntry :=
  match fs.read FPath.indexJson with
  | some (FileData.indexFile l) => l
  | _ => []

/-- The test `file.endswith('.svg')`. -/
def isSvgName (n : String) : Bool := List.isSuffixOf ".svg".data n.data

/-- An SVG file somewhere under the `allBlogs` tree, as seen by the
`os.walk` search of `create_blog_structure`. -/
def isSvgUnderAllBlogs : FPath → Bool
  | FPath.inBlog _ n => isSvgName n
  | _ => false

/-- The `os.walk` search for the first `.svg` file under `allBlogs`;
traversal order is modelled by the file-list order (the spec flags the
real selection order as undefined). -/
def findSvg (fs : FS) : Option (FPath × FileData) :=
  fs.files.find? (fun q => isSvgUnderAllBlogs q.1)

/-- The record scraped by `extract_medium_info` in `add_blog_from_url.py`. -/
structure BlogData where
  title : String
  content : String
  author : String
  publishedDate : String
  excerpt : String
  mediumUrl : String

/-- The fully resolved record handled by `create_blog_structure` in
`add_blog_manual.py` (the url script resolves id and category first and
then performs the identical steps). -/
structure ManualBlogData where
  id : String
  title : String
  excerpt : String
  content : String
  author : String
  publishedDate : String
  mediumUrl : String
  category : String

/-- The `blog_json` dict written to `allBlogs/<id>/blog.json`. -/
def mkBlogJson (r : ManualBlogData) (image_path : String) : BlogJson :=
  { id := r.id, title := r.title, excerpt := r.excerpt, content := r.content,
    author := r.author, publishedDate := r.publishedDate,
    readTime := toString (max 1 (r.content.length / 1000)) ++ " min read",
    tags := [r.category, "AWS"], mediumUrl := r.mediumUrl,
    image := image_path, category := r.category }

/-- The summary entry written to `index.json`. -/
def mkIndexEntry (r : ManualBlogData) (image_path : String) : IndexEntry :=
  { id := r.id, title := r.title, excerpt := r.excerpt,
    publishedDate := r.publishedDate, coverImage := image_path,
    category := r.category, mediumUrl := r.mediumUrl }

/-- The value of image_filename: the slugified category followed by ".svg". -/
def imageFilename (r : ManualBlogData) : String := slugify r.category ++ ".svg"

/-- The value of image_path: "allBlogs/", the id, a slash, the image filename. -/
def imagePath (r : ManualBlogData) : String :=
  "allBlogs/" ++ r.id ++ "/" ++ imageFilename r

/-- Steps (a)-(b) of the upsert: ensure the post directory exists and copy
the first SVG found under `allBlogs` (if any) to the placeholder path. -/
def afterImageCopy (fs : FS) (r : ManualBlogData) : FS :=
  match findSvg fs with
  | some q => fs.writeFile (FPath.inBlog r.id (imageFilename r)) q.2
  | none => fs

/-- State after the directory, optional image copy and the `blog.json`
write. -/
def afterBlogJson (fs : FS) (r : ManualBlogData) : FS :=
  (afterImageCopy (fs.mkdir r.id) r).writeFile (FPath.inBlog r.id "blog.json")
    (FileData.blogMeta (mkBlogJson r (imagePath r)))

/-- Function `create_blog_structure` of `add_blog_manual.py` (and the shared tail of
`add_blog_from_url.py`): directory, placeholder image, `blog.json`, then
load-upsert-sort-rewrite of `index.json`; returns the blog id. -/
def create_blog_structure_core (fs : FS) (r : ManualBlogData) : FS × String :=
  ((afterBlogJson fs r).writeFile FPath.indexJson
    (FileData.indexFile (upsertIndex (mkIndexEntry r (imagePath r))
      (afterBlogJson fs r).indexData)), r.id)

/-- Resolution `if not blog_id: blog_id = slugify(blog_data['title'])` — `None` and
the empty string are both falsy. -/
def resolveId (blog_id : Option String) (title : String) : String :=
  match blog_id with
  | none => slugify title
  | some s => if s = "" then slugify title else s

/-- Resolution of the category: "AWS" when the argument is falsy. -/
def resolveCategory (category : Option String) : String :=
  match category with
  | none => "AWS"
  | some s => if s = "" then "AWS" else s

/-- Function `create_blog_structure` of `add_blog_from_url.py`. -/
def create_blog_structure (fs : FS) (bd : BlogData)
    (blog_id category : Option String) : FS × String :=
  create_blog_structure_core fs
    { id := resolveId blog_id bd.title, title := bd.title, excerpt := bd.excerpt,
      content := bd.content, author := bd.author,
      publishedDate := bd.publishedDate, mediumUrl := bd.mediumUrl,
      category := resolveCategory category }

/-- Function `create_blog_structure` of `add_blog_manual.py`. -/
def create_blog_structure_manual (fs : FS) (r : ManualBlogData) : FS × String :=
  create_blog_structure_core fs r

/-- The only uncaught exception modelled: reading a local variable that
was never assigned. -/
inductive PyErr
  | nameError : PyErr
deriving DecidableEq

/-- Python `os.path.basename`: the part after the last slash. -/
def basenameStr (s : String) : String :=
  ⟨(s.data.reverse.takeWhile (fun c => !(c == '/'))).reverse⟩

def FPath.basename : FPath → String
  | FPath.indexJson => "index.json"
  | FPath.inBlog _ n => basenameStr n
  | FPath.outside s => basenameStr s

/-- The loop `for entry in index_data: if entry.get('id') == blog_id:
entry['coverImage'] = ...; break`. -/
def setCover (blogId rel : String) : List IndexEntry → List IndexEntry
  | [] => []
  | x :: xs =>
    if x.id = blogId then { x with coverImage := rel } :: xs
    else x :: setCover blogId rel xs

/-- Function `update_blog_image` of `add_blog_image.py`.  The local variable
`relative_image_path` is only assigned inside the branch that requires
`blog.json` to exist; it is modelled as an `Option String`, and reading it
while unassigned raises `NameError` (carrying the on-disk state at the
moment the exception is thrown). -/
def update_blog_image (fs : FS) (blog_id : String) (image_path : FPath) :
    Except (PyErr × FS) (Bool × FS) :=
  if blog_id ∈ fs.dirs then
    match fs.read image_path with
    | none => Except.ok (false, fs)
    | some srcData =>
      let image_filename := image_path.basename
      let fs₁ := fs.writeFile (FPath.inBlog blog_id image_filename) srcData
      let step :=
        match fs₁.read (FPath.inBlog blog_id "blog.json") with
        | some (FileData.blogMeta bj) =>
          let rel := "allBlogs/" ++ blog_id ++ "/" ++ image_filename
          (fs₁.writeFile (FPath.inBlog blog_id "blog.json")
            (FileData.blogMeta { bj with image := rel }), some rel)
        | _ => (fs₁, none)
      match step.1.read FPath.indexJson with
      | some (FileData.indexFile idx) =>
        if idx.any (fun en => en.id == blog_id) then
          match step.2 with
          | some rel =>
            Except.ok (true, step.1.writeFile FPath.indexJson
              (FileData.indexFile (setCover blog_id rel idx)))
          | none => Except.error (PyErr.nameError, step.1)
        else
          Except.ok (true, step.1.writeFile FPath.indexJson (FileData.indexFile idx))
      | _ => Except.ok (true, step.1)
  else Except.ok (false, fs)

/-- The `main` of `add_blog_image.py`: exit code 0 on success, 1 when
`update_blog_image` returned `False` (via `sys.exit(1)`) or when an
exception escaped. -/
def image_script_main (fs : FS) (blog_id : String) (image_path : FPath) : Nat × FS :=
  match update_blog_image fs blog_id image_path with
  | Except.ok (true, f) => (0, f)
  | Except.ok (false, f) => (1, f)
  | Except.error (_, f) => (1, f)

/-! ## Concrete data used by witnesses and counterexamples -/

def mkEntry (i d : String) : IndexEntry :=
  { id := i, title := "t", excerpt := "x", publishedDate := d,
    coverImage := "c", category := "AWS", mediumUrl := "u" }

def c9Entry : IndexEntry := mkEntry "post-1" "2024-01-01"

/-- A state in which the blog directory exists and the index knows the id,
but `blog.json` is absent. -/
def c9FS : FS :=
  { dirs := ["post-1"],
    files := [(FPath.outside "img.svg", FileData.image "bytes"),
              (FPath.indexJson, FileData.indexFile [c9Entry])] }

def sampleRecord : ManualBlogData :=
  { id := "p", title := "T", excerpt := "E", content := "C", author := "A",
    publishedDate := "2024-01-01", mediumUrl := "U", category := "Cloud Stuff" }

def emptyFS : FS := { dirs := [], files := [] }

/-! ## Facts about `Char.toLower` (the per-character part of `str.lower`,
ASCII range) -/

theorem toLower_toNat_of_upper (c : Char) (h : 65 ≤ c.toNat ∧ c.toNat ≤ 90) :
    (Char.toLower c).toNat = c.toNat + 32 := by
  have hv : Nat.isValidChar (c.toNat + 32) := by left; omega
  simp only [Char.toLower]
  rw [if_pos ⟨h.1, h.2⟩, Char.ofNat, dif_pos hv]
  simp [Char.ofNatAux, Char.toNat, UInt32.toNat, BitVec.toNat_ofNat]

theorem toLower_eq_of_not_upper (c : Char) (h : ¬ (65 ≤ c.toNat ∧ c.toNat ≤ 90)) :
    Char.toLower c = c := by
  simp only [Char.toLower]
  rw [if_neg]
  exact fun hc => h ⟨hc.1, hc.2⟩

theorem toLower_toLower (c : Char) : Char.toLower (Char.toLower c) = Char.toLower c := by
  by_cases h : 65 ≤ c.toNat ∧ c.toNat ≤ 90
  · apply toLower_eq_of_not_upper
    rw [toLower_toNat_of_upper c h]
    omega
  · rw [toLower_eq_of_not_upper c h, toLower_eq_of_not_upper c h]

/-! ## Structure of `collapseRuns` output -/

theorem collapseRuns_mem {l : List Char} {c : Char} (h : c ∈ collapseRuns l) :
    c = '-' ∨ c ∈ l := by
  induction l using collapseRuns.induct with
  | case1 => simp [collapseRuns] at h
  | case2 d hd =>
    rw [collapseRuns, if_pos hd] at h
    exact Or.inl (List.mem_singleton.mp h)
  | case3 d hd =>
    rw [collapseRuns, if_neg hd] at h
    exact Or.inr h
  | case4 a d rest ha hd ih =>
    rw [collapseRuns, if_pos ha, if_pos hd] at h
    rcases ih h with h' | h'
    · exact Or.inl h'
    · exact Or.inr (List.mem_cons_of_mem _ h')
  | case5 a d rest ha hd ih =>
    rw [collapseRuns, if_pos ha, if_neg hd] at h
    rcases List.mem_cons.mp h with h' | h'
    · exact Or.inl h'
    · rcases ih h' with h'' | h''
      · exact Or.inl h''
      · exact Or.inr (List.mem_cons_of_mem _ h'')
  | case6 a d rest ha ih =>
    rw [collapseRuns, if_neg ha] at h
    rcases List.mem_cons.mp h with h' | h'
    · exact Or.inr (h' ▸ List.mem_cons_self _ _)
    · rcases ih h' with h'' | h''
      · exact Or.inl h''
      · exact Or.inr (List.mem_cons_of_mem _ h'')

theorem collapseRuns_runChar {l : List Char} {c : Char} (h : c ∈ collapseRuns l)
    (hr : isRunChar c = true) : c = '-' := by
  induction l using collapseRuns.induct with
  | case1 => simp [collapseRuns] at h
  | case2 d hd =>
    rw [collapseRuns, if_pos hd] at h
    exact List.mem_singleton.mp h
  | case3 d hd =>
    rw [collapseRuns, if_neg hd] at h
    rw [List.mem_singleton.mp h] at hr
    exact absurd hr hd
  | case4 a d rest ha hd ih =>
    rw [collapseRuns, if_pos ha, if_pos hd] at h
    exact ih h
  | case5 a d rest ha hd ih =>
    rw [collapseRuns, if_pos ha, if_neg hd] at h
    rcases List.mem_cons.mp h with h' | h'
    · exact h'
    · exact ih h'
  | case6 a d rest ha ih =>
    rw [collapseRuns, if_neg ha] at h
    rcases List.mem_cons.mp h with h' | h'
    · rw [h'] at hr; exact absurd hr ha
    · exact ih h'

theorem collapseRuns_head {d : Char} {rest : List Char} (hd : ¬ isRunChar d = true) :
    (collapseRuns (d :: rest)).head? = some d := by
  cases rest with
  | nil => simp [collapseRuns, hd]
  | cons e rest' => rw [collapseRuns, if_neg hd]; rfl

theorem collapseRuns_noAdjRun (l : List Char) : NoAdjRun (collapseRuns l) := by
  induction l using collapseRuns.induct with
  | case1 => simp [NoAdjRun, collapseRuns]
  | case2 d hd =>
    rw [NoAdjRun, collapseRuns, if_pos hd]
    simp
  | case3 d hd =>
    rw [NoAdjRun, collapseRuns, if_neg hd]
    simp
  | case4 a d rest ha hd ih =>
    rw [NoAdjRun, collapseRuns, if_pos ha, if_pos hd]
    exact ih
  | case5 a d rest ha hd ih =>
    rw [NoAdjRun, collapseRuns, if_pos ha, if_neg hd]
    rw [List.chain'_cons']
    refine ⟨?_, ih⟩
    intro y hy
    rw [collapseRuns_head hd] at hy
    simp only [Option.mem_def, Option.some.injEq] at hy
    right
    rw [← hy]
    simpa using hd
  | case6 a d rest ha ih =>
    rw [NoAdjRun, collapseRuns, if_neg ha]
    rw [List.chain'_cons']
    refine ⟨?_, ih⟩
    intro y _
    left
    simpa using ha

theorem collapseRuns_fixed {l : List Char}
    (h1 : ∀ c ∈ l, isRunChar c = true → c = '-')
    (h2 : NoAdjRun l) : collapseRuns l = l := by
  induction l using collapseRuns.induct with
  | case1 => rfl
  | case2 d hd =>
    rw [collapseRuns, if_pos hd, h1 d (List.mem_singleton_self d) hd]
  | case3 d hd =>
    rw [collapseRuns, if_neg hd]
  | case4 a d rest ha hd ih =>
    exfalso
    rw [NoAdjRun, List.chain'_cons'] at h2
    have := h2.1 d (by rw [List.head?_cons]; rfl)
    rcases this with h' | h'
    · rw [ha] at h'; cases h'
    · rw [hd] at h'; cases h'
  | case5 a d rest ha hd ih =>
    rw [NoAdjRun, List.chain'_cons'] at h2
    rw [collapseRuns, if_pos ha, if_neg hd]
    have ha' : a = '-' := h1 a (List.mem_cons_self _ _) ha
    rw [ih (fun c hc h => h1 c (List.mem_cons_of_mem _ hc) h) h2.2, ha']
  | case6 a d rest ha ih =>
    rw [NoAdjRun, List.chain'_cons'] at h2
    rw [collapseRuns, if_neg ha]
    rw [ih (fun c hc h => h1 c (List.mem_cons_of_mem _ hc) h) h2.2]

/-! ## Facts about `trimHyphens` -/

theorem head?_dropWhile_false {p : Char → Bool} {l : List Char} {c : Char}
    (h : (l.dropWhile p).head? = some c) : p c = false := by
  induction l with
  | nil => simp [List.dropWhile] at h
  | cons a l ih =>
    rw [List.dropWhile] at h
    by_cases ha : p a = true
    · rw [ha] at h; exact ih h
    · simp only [Bool.not_eq_true] at ha
      rw [ha] at h
      simp only [List.head?_cons, Option.some.injEq] at h
      rw [← h]; exact ha

theorem dropWhile_eq_self_of_head {p : Char → Bool} {l : List Char}
    (h : ∀ c, l.head? = some c → p c = false) : l.dropWhile p = l := by
  cases l with
  | nil => rfl
  | cons a l =>
    rw [List.dropWhile, h a (List.head?_cons)]

theorem trimHyphens_subset {l : List Char} {c : Char} (h : c ∈ trimHyphens l) : c ∈ l := by
  unfold trimHyphens at h
  rw [List.mem_reverse] at h
  have h' := (List.dropWhile_suffix (l := (l.dropWhile (· == '-')).reverse) (· == '-')).subset h
  rw [List.mem_reverse] at h'
  exact (List.dropWhile_suffix (l := l) (· == '-')).subset h'

theorem trimHyphens_noAdjRun {l : List Char} (h : NoAdjRun l) : NoAdjRun (trimHyphens l) := by
  have hsym : ∀ (m : List Char), NoAdjRun m → NoAdjRun m.reverse := by
    intro m hm
    rw [NoAdjRun, List.chain'_reverse]
    exact hm.imp (fun a b hab => hab.symm)
  have h1 : NoAdjRun (l.dropWhile (· == '-')) :=
    h.suffix (List.dropWhile_suffix _)
  have h2 : NoAdjRun ((l.dropWhile (· == '-')).reverse.dropWhile (· == '-')) :=
    (hsym _ h1).suffix (List.dropWhile_suffix _)
  exact hsym _ h2

theorem trimHyphens_head {l : List Char} {c : Char}
    (h : (trimHyphens l).head? = some c) : (c == '-') = false := by
  obtain ⟨t, ht⟩ := List.dropWhile_suffix (l := (l.dropWhile (· == '-')).reverse) (· == '-')
  have hrw : trimHyphens l ++ t.reverse = l.dropWhile (· == '-') := by
    have h2 := congrArg List.reverse ht
    rw [List.reverse_append, List.reverse_reverse] at h2
    exact h2
  have hhead : (l.dropWhile (· == '-')).head? = some c := by
    rw [← hrw, List.head?_append, h]
    rfl
  exact head?_dropWhile_false (p := (· == '-')) hhead

theorem trimHyphens_getLast {l : List Char} {c : Char}
    (h : (trimHyphens l).getLast? = some c) : (c == '-') = false := by
  have h2 : ((l.dropWhile (· == '-')).reverse.dropWhile (· == '-')).head? = some c := by
    have h3 : (trimHyphens l).reverse
        = (l.dropWhile (· == '-')).reverse.dropWhile (· == '-') := by
      unfold trimHyphens
      exact List.reverse_reverse _
    rw [← h3, List.head?_reverse]
    exact h
  exact head?_dropWhile_false (p := (· == '-')) h2

theorem trimHyphens_trim (l : List Char) : trimHyphens (trimHyphens l) = trimHyphens l := by
  have hA : (trimHyphens l).dropWhile (· == '-') = trimHyphens l := by
    apply dropWhile_eq_self_of_head
    intro c hc
    exact trimHyphens_head hc
  have hB : (trimHyphens l).reverse.dropWhile (· == '-') = (trimHyphens l).reverse := by
    apply dropWhile_eq_self_of_head
    intro c hc
    rw [List.head?_reverse] at hc
    exact trimHyphens_getLast hc
  calc trimHyphens (trimHyphens l)
      = (((trimHyphens l).dropWhile (· == '-')).reverse.dropWhile (· == '-')).reverse := rfl
    _ = ((trimHyphens l).reverse.dropWhile (· == '-')).reverse := by rw [hA]
    _ = (trimHyphens l).reverse.reverse := by rw [hB]
    _ = trimHyphens l := List.reverse_reverse _

/-! ## Slugify output characterisation and idempotence -/

theorem slugifyChars_chars {l : List Char} {c : Char} (h : c ∈ slugifyChars l) :
    keepChar c = true ∧ Char.toLower c = c ∧ (isRunChar c = true → c = '-') := by
  unfold slugifyChars at h
  have hc := trimHyphens_subset h
  have hrun : isRunChar c = true → c = '-' := collapseRuns_runChar hc
  rcases collapseRuns_mem hc with h' | h'
  · subst h'
    refine ⟨by decide, by decide, fun _ => rfl⟩
  · rw [List.mem_filter] at h'
    obtain ⟨hmem, hkeep⟩ := h'
    rw [List.mem_map] at hmem
    obtain ⟨d, _, hd⟩ := hmem
    refine ⟨hkeep, ?_, hrun⟩
    rw [← hd]
    exact toLower_toLower d

theorem slugifyChars_noAdjRun (l : List Char) : NoAdjRun (slugifyChars l) :=
  trimHyphens_noAdjRun (collapseRuns_noAdjRun _)

theorem slugifyChars_idem (l : List Char) : slugifyChars (slugifyChars l) = slugifyChars l := by
  have hfix : ∀ c ∈ slugifyChars l, keepChar c = true ∧ Char.toLower c = c ∧
      (isRunChar c = true → c = '-') := fun c hc => slugifyChars_chars hc
  have hmap : (slugifyChars l).map Char.toLower = slugifyChars l := by
    conv_rhs => rw [← List.map_id (slugifyChars l)]
    exact List.map_congr_left (fun a ha => (hfix a ha).2.1)
  have hfilter : (slugifyChars l).filter keepChar = slugifyChars l :=
    List.filter_eq_self.mpr (fun a ha => (hfix a ha).1)
  have hcollapse : collapseRuns (slugifyChars l) = slugifyChars l :=
    collapseRuns_fixed (fun c hc => (hfix c hc).2.2) (slugifyChars_noAdjRun l)
  show trimHyphens (collapseRuns (((slugifyChars l).map Char.toLower).filter keepChar))
      = slugifyChars l
  rw [hmap, hfilter, hcollapse]
  show trimHyphens (trimHyphens (collapseRuns ((l.map Char.toLower).filter keepChar)))
      = slugifyChars l
  rw [trimHyphens_trim]
  rfl

/-- C4: `slugify` is idempotent: `slugify (slugify x) = slugify x` for every
input string `x`. -/
theorem slugify_idempotent (s : String) : slugify (slugify s) = slugify s := by
  unfold slugify
  apply congrArg String.mk
  exact slugifyChars_idem s.data

/-- C5 counterexample: on the input `"a_b"` the code's `slugify` keeps the
underscore (because `\w` matches it) and turns it into a hyphen, while the
pipeline exactly as the specification words it (kept set {letters, digits,
whitespace, hyphen}) strips the underscore: the two functions differ. -/
theorem slugify_spec_counterexample :
    slugify "a_b" = "a-b" ∧ slugifySpec "a_b" = "ab" ∧
      slugify "a_b" ≠ slugifySpec "a_b" := by
  refine ⟨by decide, by decide, by decide⟩

/-- C5 amended: `slugify` computes exactly the spec pipeline with the
kept-character set amended to {letters, digits, underscore, whitespace,
hyphen}; in particular it is a pure deterministic function of its input. -/
theorem slugify_matches_amended_spec (s : String) : slugify s = slugifySpecAmended s := by
  unfold slugify slugifySpecAmended slugifyChars
  apply congrArg String.mk
  have : (s.data.map Char.toLower).filter keepChar
      = (s.data.map Char.toLower).filter specKeepCharAmended := by
    apply List.filter_congr
    intro c _
    simp [keepChar, isWordChar, Char.isAlphanum, specKeepCharAmended, Bool.or_assoc]
  rw [this]

/-! ## Index lemmas -/

theorem countId_cons (i : String) (x : IndexEntry) (xs : List IndexEntry) :
    countId i (x :: xs) = (if x.id = i then 1 else 0) + countId i xs := by
  by_cases h : x.id = i <;> simp [countId, List.filter_cons, h, Nat.add_comm]

theorem atMostOne_of_cons {x : IndexEntry} {xs : List IndexEntry}
    (h : AtMostOnePerId (x :: xs)) : AtMostOnePerId xs := by
  intro i
  have hi := h i
  rw [countId_cons] at hi
  split at hi <;> omega

theorem countId_pos_of_mem {x : IndexEntry} {l : List IndexEntry} {i : String}
    (hx : x ∈ l) (hid : x.id = i) : 1 ≤ countId i l := by
  have hmem : x ∈ l.filter (fun y => y.id == i) :=
    List.mem_filter.mpr ⟨hx, by simp [hid]⟩
  have := List.length_pos_of_mem hmem
  unfold countId
  omega

theorem countId_replaceOrAppend_self (e : IndexEntry) (l : List IndexEntry)
    (h : AtMostOnePerId l) : countId e.id (replaceOrAppend e l) = 1 := by
  induction l with
  | nil => simp [replaceOrAppend, countId]
  | cons x xs ih =>
    by_cases hx : x.id = e.id
    · rw [replaceOrAppend, if_pos hx, countId_cons, if_pos rfl]
      have h1 := h e.id
      rw [countId_cons, if_pos hx] at h1
      omega
    · rw [replaceOrAppend, if_neg hx, countId_cons, if_neg hx]
      rw [ih (atMostOne_of_cons h)]

theorem countId_replaceOrAppend_ne (e : IndexEntry) {i : String} (hne : i ≠ e.id)
    (l : List IndexEntry) : countId i (replaceOrAppend e l) = countId i l := by
  induction l with
  | nil =>
    rw [replaceOrAppend, countId_cons, if_neg (fun h => hne h.symm), Nat.zero_add]
  | cons x xs ih =>
    by_cases hx : x.id = e.id
    · rw [replaceOrAppend, if_pos hx, countId_cons, countId_cons,
        if_neg (fun h => hne h.symm), if_neg (fun h => hne (hx ▸ h).symm)]
    · rw [replaceOrAppend, if_neg hx, countId_cons, countId_cons, ih]

theorem count_replaceOrAppend_ne (e : IndexEntry) {x : IndexEntry} (hne : x.id ≠ e.id)
    (l : List IndexEntry) : (replaceOrAppend e l).count x = l.count x := by
  induction l with
  | nil =>
    rw [replaceOrAppend, List.count_cons]
    have : ¬ e = x := fun h => hne (by rw [h])
    simp [this]
  | cons y ys ih =>
    by_cases hy : y.id = e.id
    · rw [replaceOrAppend, if_pos hy, List.count_cons, List.count_cons]
      have h1 : ¬ e = x := fun h => hne (by rw [h])
      have h2 : ¬ y = x := fun h => hne (by rw [← h]; exact hy)
      simp [h1, h2]
    · rw [replaceOrAppend, if_neg hy, List.count_cons, List.count_cons, ih]

theorem mem_replaceOrAppend_self (e : IndexEntry) (l : List IndexEntry) :
    e ∈ replaceOrAppend e l := by
  induction l with
  | nil => exact List.mem_singleton_self e
  | cons x xs ih =>
    by_cases hx : x.id = e.id
    · rw [replaceOrAppend, if_pos hx]; exact List.mem_cons_self _ _
    · rw [replaceOrAppend, if_neg hx]; exact List.mem_cons_of_mem _ ih

theorem mem_replaceOrAppend_self_eq {e : IndexEntry} {l : List IndexEntry}
    (h : AtMostOnePerId l) {x : IndexEntry} (hx : x ∈ replaceOrAppend e l)
    (hid : x.id = e.id) : x = e := by
  induction l with
  | nil => exact List.mem_singleton.mp hx
  | cons y ys ih =>
    by_cases hy : y.id = e.id
    · rw [replaceOrAppend, if_pos hy] at hx
      rcases List.mem_cons.mp hx with h' | h'
      · exact h'
      · exfalso
        have hcount := h e.id
        rw [countId_cons, if_pos hy] at hcount
        have := countId_pos_of_mem h' hid
        omega
    · rw [replaceOrAppend, if_neg hy] at hx
      rcases List.mem_cons.mp hx with h' | h'
      · exact absurd (h' ▸ hid) hy
      · exact ih (atMostOne_of_cons h) h'

theorem countId_upsertIndex (i : String) (e : IndexEntry) (l : List IndexEntry) :
    countId i (upsertIndex e l) = countId i (replaceOrAppend e l) :=
  ((List.perm_insertionSort dateGe (replaceOrAppend e l)).filter _).length_eq

theorem atMostOne_upsertIndex {l : List IndexEntry} (h : AtMostOnePerId l)
    (e : IndexEntry) : AtMostOnePerId (upsertIndex e l) := by
  intro i
  rw [countId_upsertIndex]
  by_cases hi : i = e.id
  · rw [hi, countId_replaceOrAppend_self e l h]
  · rw [countId_replaceOrAppend_ne e hi l]
    exact h i

theorem replaceOrAppend_length_of_not (e : IndexEntry) (l : List IndexEntry)
    (h : ∀ x ∈ l, x.id ≠ e.id) : (replaceOrAppend e l).length = l.length + 1 := by
  induction l with
  | nil => rfl
  | cons x xs ih =>
    rw [replaceOrAppend, if_neg (h x (List.mem_cons_self _ _)), List.length_cons,
      List.length_cons, ih (fun y hy => h y (List.mem_cons_of_mem _ hy))]

theorem replaceOrAppend_length_of_mem (e : IndexEntry) (l : List IndexEntry)
    (h : ∃ x ∈ l, x.id = e.id) : (replaceOrAppend e l).length = l.length := by
  induction l with
  | nil => obtain ⟨x, hx, _⟩ := h; cases hx
  | cons y ys ih =>
    by_cases hy : y.id = e.id
    · rw [replaceOrAppend, if_pos hy, List.length_cons, List.length_cons]
    · rw [replaceOrAppend, if_neg hy, List.length_cons, List.length_cons]
      obtain ⟨x, hx, hxid⟩ := h
      rcases List.mem_cons.mp hx with h' | h'
      · exact absurd (h' ▸ hxid) hy
      · rw [ih ⟨x, h', hxid⟩]

theorem AtMostOnePerId_nil : AtMostOnePerId [] := by
  intro i
  simp [countId]

theorem AtMostOnePerId_singleton (x : IndexEntry) : AtMostOnePerId [x] := by
  intro i
  rw [countId_cons]
  have : countId i [] = 0 := rfl
  split <;> omega

theorem AtMostOnePerId_applyUpserts (ops : List IndexEntry) :
    AtMostOnePerId (applyUpserts ops) := by
  have key : ∀ (os : List IndexEntry) (acc : List IndexEntry), AtMostOnePerId acc →
      AtMostOnePerId (os.foldl (fun idx e => upsertIndex e idx) acc) := by
    intro os
    induction os with
    | nil => exact fun acc h => h
    | cons e os ih =>
      intro acc h
      exact ih _ (atMostOne_upsertIndex h e)
  exact key ops [] AtMostOnePerId_nil

/-! ## File-system lemmas -/

theorem lookupFile_insertFile_eq (p : FPath) (d : FileData)
    (files : List (FPath × FileData)) :
    lookupFile p (insertFile p d files) = some d := by
  induction files with
  | nil =>
    simp [insertFile, lookupFile]
  | cons a rest ih =>
    simp only [insertFile]
    by_cases ha : a.1 = p
    · rw [if_pos ha]
      simp [lookupFile]
    · rw [if_neg ha]
      simp only [lookupFile]
      rw [if_neg ha, ih]

theorem lookupFile_insertFile_ne {p q : FPath} (h : q ≠ p) (d : FileData)
    (files : List (FPath × FileData)) :
    lookupFile q (insertFile p d files) = lookupFile q files := by
  have hpq : ¬ p = q := fun hpq => h hpq.symm
  induction files with
  | nil =>
    simp only [insertFile, lookupFile]
    rw [if_neg hpq]
  | cons a rest ih =>
    simp only [insertFile]
    by_cases ha : a.1 = p
    · rw [if_pos ha]
      simp only [lookupFile]
      rw [if_neg hpq, if_neg (show ¬ a.1 = q by rw [ha]; exact hpq)]
    · rw [if_neg ha]
      simp only [lookupFile]
      by_cases haq : a.1 = q
      · rw [if_pos haq, if_pos haq]
      · rw [if_neg haq, if_neg haq, ih]

theorem lookupFile_mem {p : FPath} {files : List (FPath × FileData)} {d : FileData}
    (h : lookupFile p files = some d) : (p, d) ∈ files := by
  induction files with
  | nil => simp [lookupFile] at h
  | cons a rest ih =>
    simp only [lookupFile] at h
    by_cases ha : a.1 = p
    · rw [if_pos ha] at h
      simp only [Option.some.injEq] at h
      have haeq : a = (p, d) := by
        cases a with
        | mk a1 a2 =>
          simp only at ha h
          rw [Prod.mk.injEq]
          exact ⟨ha, h⟩
      rw [← haeq]
      exact List.mem_cons_self _ _
    · rw [if_neg ha] at h
      exact List.mem_cons_of_mem _ (ih h)

theorem read_writeFile_eq (fs : FS) (p : FPath) (d : FileData) :
    (fs.writeFile p d).read p = some d :=
  lookupFile_insertFile_eq p d fs.files

theorem read_writeFile_ne (fs : FS) {p q : FPath} (h : q ≠ p) (d : FileData) :
    (fs.writeFile p d).read q = fs.read q :=
  lookupFile_insertFile_ne h d fs.files

theorem read_mkdir (fs : FS) (i : String) (q : FPath) :
    (fs.mkdir i).read q = fs.read q := by
  unfold FS.mkdir
  split <;> rfl

theorem files_mkdir (fs : FS) (i : String) : (fs.mkdir i).files = fs.files := by
  unfold FS.mkdir
  split <;> rfl

theorem read_afterImageCopy (fs : FS) (r : ManualBlogData) (q : FPath)
    (h : ∀ name, q ≠ FPath.inBlog r.id name) :
    (afterImageCopy fs r).read q = fs.read q := by
  unfold afterImageCopy
  cases hf : findSvg fs with
  | none => rfl
  | some qq => exact read_writeFile_ne fs (h _) qq.2

theorem read_afterBlogJson (fs : FS) (r : ManualBlogData) (q : FPath)
    (h : ∀ name, q ≠ FPath.inBlog r.id name) :
    (afterBlogJson fs r).read q = fs.read q := by
  unfold afterBlogJson
  rw [read_writeFile_ne _ (h _), read_afterImageCopy _ r _ h, read_mkdir]

theorem createCore_read_other (fs : FS) (r : ManualBlogData) (q : FPath)
    (h1 : q ≠ FPath.indexJson) (h2 : ∀ name, q ≠ FPath.inBlog r.id name) :
    (create_blog_structure_core fs r).1.read q = fs.read q := by
  unfold create_blog_structure_core
  rw [read_writeFile_ne _ h1, read_afterBlogJson _ _ _ h2]

theorem read_afterBlogJson_blogJson (fs : FS) (r : ManualBlogData) :
    (afterBlogJson fs r).read (FPath.inBlog r.id "blog.json")
      = some (FileData.blogMeta (mkBlogJson r (imagePath r))) := by
  unfold afterBlogJson
  exact read_writeFile_eq _ _ _

theorem createCore_indexData (fs : FS) (r : ManualBlogData) :
    (create_blog_structure_core fs r).1.indexData
      = upsertIndex (mkIndexEntry r (imagePath r)) fs.indexData := by
  have habj : (afterBlogJson fs r).indexData = fs.indexData := by
    unfold FS.indexData
    rw [read_afterBlogJson fs r FPath.indexJson (fun name h => FPath.noConfusion h)]
  unfold create_blog_structure_core FS.indexData
  rw [read_writeFile_eq]
  unfold FS.indexData at habj
  rw [habj]

theorem createCore_read_blogJson (fs : FS) (r : ManualBlogData) :
    (create_blog_structure_core fs r).1.read (FPath.inBlog r.id "blog.json")
      = some (FileData.blogMeta (mkBlogJson r (imagePath r))) := by
  unfold create_blog_structure_core
  rw [read_writeFile_ne _ (fun h => FPath.noConfusion h),
    read_afterBlogJson_blogJson]

/-! ## Claim theorems about the index -/

/-- C1 counterexample: on an index state that already holds two entries
with id `"a"`, upserting a record with id `"a"` twice still leaves two
entries with that id (the loop replaces only the first match), so the
claim's "for every index state" quantification fails. -/
theorem upsert_idempotent_counterexample :
    countId "a" (upsertIndex (mkEntry "a" "2024-03-03")
        (upsertIndex (mkEntry "a" "2024-03-03")
          [mkEntry "a" "2024-01-01", mkEntry "a" "2024-02-02"])) = 2 ∧
    ¬ countId "a" (upsertIndex (mkEntry "a" "2024-03-03")
        (upsertIndex (mkEntry "a" "2024-03-03")
          [mkEntry "a" "2024-01-01", mkEntry "a" "2024-02-02"])) = 1 :=
  ⟨by decide, by decide⟩

/-- C1 (amended): on every index state with at most one entry per id — in
particular on every index the scripts produce — upserting the same record
twice yields exactly one entry with the record's id, that entry carries
the record's field values, and every index produced by a sequence of
upserts from an empty index has at most one entry per id. -/
theorem upsert_idempotent_on_id (e : IndexEntry) (l : List IndexEntry)
    (h : AtMostOnePerId l) :
    countId e.id (upsertIndex e (upsertIndex e l)) = 1 ∧
    (∀ x ∈ upsertIndex e (upsertIndex e l), x.id = e.id → x = e) ∧
    (∀ ops : List IndexEntry, AtMostOnePerId (applyUpserts ops)) := by
  have h1 : AtMostOnePerId (upsertIndex e l) := atMostOne_upsertIndex h e
  refine ⟨?_, ?_, AtMostOnePerId_applyUpserts⟩
  · rw [countId_upsertIndex]
    exact countId_replaceOrAppend_self e _ h1
  · intro x hx hid
    have hmem : x ∈ replaceOrAppend e (upsertIndex e l) :=
      (List.perm_insertionSort dateGe _).mem_iff.mp hx
    exact mem_replaceOrAppend_self_eq h1 hmem hid

theorem upsert_idempotent_on_id_witness :
    countId "a" (upsertIndex (mkEntry "a" "2024-03-03")
        (upsertIndex (mkEntry "a" "2024-03-03") [mkEntry "b" "2024-01-01"])) = 1 ∧
    (∀ x ∈ upsertIndex (mkEntry "a" "2024-03-03")
        (upsertIndex (mkEntry "a" "2024-03-03") [mkEntry "b" "2024-01-01"]),
      x.id = (mkEntry "a" "2024-03-03").id → x = mkEntry "a" "2024-03-03") ∧
    (∀ ops : List IndexEntry, AtMostOnePerId (applyUpserts ops)) :=
  upsert_idempotent_on_id (mkEntry "a" "2024-03-03") [mkEntry "b" "2024-01-01"]
    (AtMostOnePerId_singleton _)

/-- C2: starting from an empty or absent index, the index list written to
the index file is sorted by `publishedDate` descending after each
operation — both for any sequence of in-memory upserts and for the list a
`create_blog_structure` call stores in `index.json`. -/
theorem index_sorted_after_each_upsert (ops : List IndexEntry) (e : IndexEntry)
    (fs : FS) (r : ManualBlogData) :
    List.Sorted dateGe (applyUpserts (ops ++ [e])) ∧
    List.Sorted dateGe ((create_blog_structure_core fs r).1.indexData) := by
  constructor
  · rw [applyUpserts, List.foldl_append]
    exact List.sorted_insertionSort dateGe _
  · rw [createCore_indexData]
    exact List.sorted_insertionSort dateGe _

/-- C3: upserting a record whose id is absent from the index grows the
index by exactly one entry; upserting a record whose id is present leaves
the length unchanged. -/
theorem upsert_length_change (e : IndexEntry) (l : List IndexEntry) :
    ((∀ x ∈ l, x.id ≠ e.id) → (upsertIndex e l).length = l.length + 1) ∧
    ((∃ x ∈ l, x.id = e.id) → (upsertIndex e l).length = l.length) := by
  have hperm := (List.perm_insertionSort dateGe (replaceOrAppend e l)).length_eq
  constructor
  · intro h
    rw [upsertIndex, sortByDateDesc, hperm, replaceOrAppend_length_of_not e l h]
  · intro h
    rw [upsertIndex, sortByDateDesc, hperm, replaceOrAppend_length_of_mem e l h]

theorem upsert_length_change_witness :
    (upsertIndex (mkEntry "a" "2024-03-03") []).length
      = List.length ([] : List IndexEntry) + 1 ∧
    (upsertIndex (mkEntry "a" "2024-03-03") [mkEntry "a" "2024-01-01"]).length
      = List.length [mkEntry "a" "2024-01-01"] :=
  ⟨(upsert_length_change (mkEntry "a" "2024-03-03") []).1 (by simp),
   (upsert_length_change (mkEntry "a" "2024-03-03") [mkEntry "a" "2024-01-01"]).2
     ⟨mkEntry "a" "2024-01-01", List.mem_singleton_self _, rfl⟩⟩

/-! ## Claim theorems about the file-level operations -/

theorem isSvgName_append (s : String) : isSvgName (s ++ ".svg") = true := by
  unfold isSvgName
  rw [String.data_append]
  exact List.isSuffixOf_iff_suffix.mpr (List.suffix_append _ _)

theorem findSvg_eq_none {fs : FS}
    (hno : ∀ q ∈ fs.files, isSvgUnderAllBlogs q.1 = false) : findSvg fs = none :=
  List.find?_eq_none.mpr (fun x hx => by simp [hno x hx])

/-- C6: the `readTime` field written to the post's metadata file equals
`max 1 (content length / 1000)` (exact integer division) rendered in
decimal, followed by `" min read"`. -/
theorem readTime_written (fs : FS) (r : ManualBlogData) :
    ∃ bj : BlogJson,
      (create_blog_structure_core fs r).1.read (FPath.inBlog r.id "blog.json")
        = some (FileData.blogMeta bj) ∧
      bj.readTime = toString (max 1 (r.content.length / 1000)) ++ " min read" :=
  ⟨mkBlogJson r (imagePath r), createCore_read_blogJson fs r, rfl⟩

/-- C8: the upsert never deletes an existing post: every index entry whose
id differs from the upserted record's id keeps its exact multiplicity (all
fields unchanged — only its position may change), and no file inside the
per-post directory of a different id is touched. -/
theorem upsert_preserves_other_posts (fs : FS) (r : ManualBlogData) :
    (∀ x : IndexEntry, x.id ≠ r.id →
      ((create_blog_structure_core fs r).1.indexData).count x
        = (fs.indexData).count x) ∧
    (∀ pid name, pid ≠ r.id →
      (create_blog_structure_core fs r).1.read (FPath.inBlog pid name)
        = fs.read (FPath.inBlog pid name)) := by
  constructor
  · intro x hx
    rw [createCore_indexData, upsertIndex, sortByDateDesc,
      (List.perm_insertionSort dateGe _).count_eq x]
    exact count_replaceOrAppend_ne _ hx _
  · intro pid name hpid
    apply createCore_read_other
    · exact fun hh => FPath.noConfusion hh
    · intro nm hh
      injection hh with h1 h2
      exact hpid h1

theorem upsert_preserves_other_posts_witness :
    ((create_blog_structure_core c9FS sampleRecord).1.indexData).count c9Entry
      = (c9FS.indexData).count c9Entry ∧
    (create_blog_structure_core c9FS sampleRecord).1.read
        (FPath.inBlog "other" "blog.json")
      = c9FS.read (FPath.inBlog "other" "blog.json") :=
  ⟨(upsert_preserves_other_posts c9FS sampleRecord).1 c9Entry (by decide),
   (upsert_preserves_other_posts c9FS sampleRecord).2 "other" "blog.json" (by decide)⟩

/-- C10: when no SVG file exists anywhere under the post collection root,
the upsert still succeeds, writes the metadata file and the index entry
with image/coverImage path `allBlogs/<id>/<slugified-category>.svg`, and
creates no file at that path, so the stored record references a
non-existent file. -/
theorem upsert_without_svg (fs : FS) (r : ManualBlogData)
    (hno : ∀ q ∈ fs.files, isSvgUnderAllBlogs q.1 = false) :
    (create_blog_structure_core fs r).2 = r.id ∧
    (∃ bj : BlogJson,
      (create_blog_structure_core fs r).1.read (FPath.inBlog r.id "blog.json")
        = some (FileData.blogMeta bj) ∧ bj.image = imagePath r) ∧
    (∃ x ∈ (create_blog_structure_core fs r).1.indexData,
      x.id = r.id ∧ x.coverImage = imagePath r) ∧
    (create_blog_structure_core fs r).1.read
      (FPath.inBlog r.id (imageFilename r)) = none := by
  have hname : isSvgName (imageFilename r) = true := isSvgName_append (slugify r.category)
  refine ⟨rfl, ⟨mkBlogJson r (imagePath r), createCore_read_blogJson fs r, rfl⟩, ?_, ?_⟩
  · refine ⟨mkIndexEntry r (imagePath r), ?_, rfl, rfl⟩
    rw [createCore_indexData]
    exact (List.perm_insertionSort dateGe _).mem_iff.mpr (mem_replaceOrAppend_self _ _)
  · have hmk : ∀ q ∈ (fs.mkdir r.id).files, isSvgUnderAllBlogs q.1 = false := by
      rw [files_mkdir]
      exact hno
    have hcopy : afterImageCopy (fs.mkdir r.id) r = fs.mkdir r.id := by
      unfold afterImageCopy
      rw [findSvg_eq_none hmk]
    have hbgneq : ("blog.json" : String) ≠ imageFilename r := by
      intro hh
      rw [← hh] at hname
      exact absurd hname (by decide)
    have hreadfs : fs.read (FPath.inBlog r.id (imageFilename r)) = none := by
      cases hread : fs.read (FPath.inBlog r.id (imageFilename r)) with
      | none => rfl
      | some d =>
        exfalso
        have hm := lookupFile_mem hread
        have hv := hno _ hm
        simp only [isSvgUnderAllBlogs] at hv
        rw [hname] at hv
        exact Bool.noConfusion hv
    unfold create_blog_structure_core
    rw [read_writeFile_ne _ (fun hh => FPath.noConfusion hh)]
    unfold afterBlogJson
    rw [read_writeFile_ne _ (fun hh => by injection hh with u v; exact hbgneq v.symm)]
    rw [hcopy, read_mkdir]
    exact hreadfs

theorem upsert_without_svg_witness :
    (create_blog_structure_core emptyFS sampleRecord).2 = sampleRecord.id ∧
    (∃ bj : BlogJson,
      (create_blog_structure_core emptyFS sampleRecord).1.read
        (FPath.inBlog sampleRecord.id "blog.json")
        = some (FileData.blogMeta bj) ∧ bj.image = imagePath sampleRecord) ∧
    (∃ x ∈ (create_blog_structure_core emptyFS sampleRecord).1.indexData,
      x.id = sampleRecord.id ∧ x.coverImage = imagePath sampleRecord) ∧
    (create_blog_structure_core emptyFS sampleRecord).1.read
      (FPath.inBlog sampleRecord.id (imageFilename sampleRecord)) = none :=
  upsert_without_svg emptyFS sampleRecord (fun q hq => absurd hq (List.not_mem_nil q))

/-- C7: when the referenced blog directory or the referenced image file
does not exist, `update_blog_image` reports failure without modifying any
file, and the script exits with code 1 leaving the state unchanged. -/
theorem update_blog_image_missing_noop (fs : FS) (blog_id : String)
    (image_path : FPath)
    (h : blog_id ∉ fs.dirs ∨ fs.read image_path = none) :
    update_blog_image fs blog_id image_path = Except.ok (false, fs) ∧
    image_script_main fs blog_id image_path = (1, fs) := by
  have h1 : update_blog_image fs blog_id image_path = Except.ok (false, fs) := by
    rcases h with h | h
    · unfold update_blog_image
      rw [if_neg h]
    · unfold update_blog_image
      by_cases hd : blog_id ∈ fs.dirs
      · rw [if_pos hd, h]
      · rw [if_neg hd]
  refine ⟨h1, ?_⟩
  unfold image_script_main
  rw [h1]

theorem update_blog_image_missing_noop_witness :
    ("missing" ∉ emptyFS.dirs ∨ emptyFS.read (FPath.outside "i.svg") = none) ∧
    (update_blog_image emptyFS "missing" (FPath.outside "i.svg")
        = Except.ok (false, emptyFS) ∧
      image_script_main emptyFS "missing" (FPath.outside "i.svg") = (1, emptyFS)) :=
  ⟨Or.inl (List.not_mem_nil _),
    update_blog_image_missing_noop emptyFS "missing" (FPath.outside "i.svg")
      (Or.inl (List.not_mem_nil _))⟩

/-- C9: on a state where the blog directory for the id exists, its
`blog.json` is absent, and the index file holds an entry for the id,
`update_blog_image` raises the unhandled `NameError` caused by reading the
unassigned local `relative_image_path` in the index-update branch. -/
theorem update_blog_image_nameError :
    "post-1" ∈ c9FS.dirs ∧
    c9FS.read (FPath.inBlog "post-1" "blog.json") = none ∧
    (∃ x ∈ c9FS.indexData, x.id = "post-1") ∧
    ∃ f : FS, update_blog_image c9FS "post-1" (FPath.outside "img.svg")
      = Except.error (PyErr.nameError, f) :=
  ⟨by decide, by decide, ⟨c9Entry, by decide, rfl⟩,
    ⟨c9FS.writeFile (FPath.inBlog "post-1" "img.svg") (FileData.image "bytes"), rfl⟩⟩

end PublicAssets
